import Mathlib

/-!
Shallow embedding of the `sonitas.similarity` package (files `flow.py`,
`scoring.py`, `transform.py`) and proofs about it.

Signals are modelled as lists of real numbers (`np.ndarray` of dtype
float, 1-D).  NumPy's float arithmetic is modelled by exact real
arithmetic; `np.mean`, `np.std` (population std, ddof=0),
`np.linalg.norm` and `np.dot` are embedded below with their documented
mathematical definitions.  Python's `raise` in a constructor is modelled
by a constructor returning `Except`.
-/

/-- A 1-D signal: `np.ndarray` with real entries. -/
abbrev Signal := List ℝ

/-- Embedding of `np.mean` for a 1-D signal: sum divided by length.
(For the empty signal Lean's division by zero yields 0.) -/
noncomputable def mean (s : Signal) : ℝ :=
  s.sum / (s.length : ℝ)

/-- Embedding of the population variance used by `np.std`:
mean of the squared deviations from the mean. -/
noncomputable def var (s : Signal) : ℝ :=
  mean (s.map (fun x => (x - mean s) ^ 2))

/-- Embedding of `np.std` (ddof = 0): square root of the population
variance. -/
noncomputable def std (s : Signal) : ℝ :=
  Real.sqrt (var s)

/-- Embedding of `np.linalg.norm` for a 1-D real signal: the Euclidean
norm, the square root of the sum of squares. -/
noncomputable def norm2 (s : Signal) : ℝ :=
  Real.sqrt ((s.map (fun x => x ^ 2)).sum)

/-- Embedding of `np.dot` for two 1-D real signals: the sum of the
elementwise products (for real input, `.real` is the identity). -/
def dotp (a b : Signal) : ℝ :=
  (List.zipWith (fun x y => x * y) a b).sum

/-- Embedding of `sonitas.similarity.flow.Flow` (named `SonitasFlow`
here to avoid a name clash): an ordered list of
transformer steps (each mapping a signal pair to a signal pair, the
shape of `Transformer.transform`) together with one scoring function
(the shape of `Scoring.compare`). -/
structure SonitasFlow where
  steps : List (Signal → Signal → Signal × Signal)
  scoring : Signal → Signal → ℝ

/-- Embedding of `Flow.run` (flow.py lines 38-58): the Python `for`
loop rebinding `(signal_a, signal_b)` across the steps is the left fold
over the step list, and the final pair is handed to the scorer. -/
def SonitasFlow.run (f : SonitasFlow) (signal_a : Signal) (signal_b : Signal) : ℝ :=
  let p := f.steps.foldl (fun q step => step q.1 q.2) (signal_a, signal_b)
  f.scoring p.1 p.2

/-- Embedding of `LowPass.__init__` (transform.py lines 175-186).  The
source raises `ValueError` when `keep_ratio` is outside the closed
interval `[0, 1]`; the raising constructor is modelled as a function
into `Except`, returning the stored ratio on success.  The constructor
parameter `keep_ratio` is written `keep` here. -/
def LowPass.init (keep : ℚ) : Except String ℚ :=
  if ¬(0 ≤ keep ∧ keep ≤ 1) then
    Except.error "keep_ratio must be between 0 and 1"
  else
    Except.ok keep

/-- Embedding of `LowPass.transform_unary` (transform.py lines 188-197)
for 1-D input (the `ndim == 0` scalar branch is not representable for a
list and is omitted).  `int(len(signal) * self.keep_ratio)` truncates
toward zero, which for the nonnegative ratios admitted by the
constructor is the floor. -/
def LowPass.transform_unary (keep : ℚ) (signal : Signal) : Signal :=
  let cutoff := (Int.floor ((signal.length : ℚ) * keep)).toNat
  let cutoff2 := if cutoff = 0 ∧ 0 < keep ∧ 0 < signal.length then 1 else cutoff
  signal.take cutoff2

/-- C1: `SonitasFlow.run` applies each stage in list order, threading each
stage's output pair into the next stage, and returns the scorer's
result on the final pair; for an empty stage list it is exactly the
scorer applied to the raw signals. -/
theorem flow_run_spec (st : Signal → Signal → Signal × Signal)
    (steps : List (Signal → Signal → Signal × Signal))
    (sc : Signal → Signal → ℝ) (a b : Signal) :
    SonitasFlow.run ⟨[], sc⟩ a b = sc a b
    ∧ SonitasFlow.run ⟨st :: steps, sc⟩ a b
        = SonitasFlow.run ⟨steps, sc⟩ (st a b).1 (st a b).2 :=
  ⟨rfl, rfl⟩

/-- C3 counterexample: with `keep_ratio = 1/2` (which lies in `(0, 1]`)
and the empty 1-D signal, `LowPass.transform_unary` returns an empty
(zero-element) result, contradicting the claim that a positive keep
ratio never returns an empty result. -/
theorem lowpass_empty_cex :
    0 < (1/2 : ℚ) ∧ (1/2 : ℚ) ≤ 1
    ∧ LowPass.transform_unary (1/2) ([] : Signal) = []
    ∧ (LowPass.transform_unary (1/2) ([] : Signal)).length = 0 := by
  refine ⟨by norm_num, by norm_num, ?_, ?_⟩ <;>
    simp [LowPass.transform_unary]

/-- C3 (amended): for `0 < keep_ratio ≤ 1` and a NONEMPTY 1-D signal,
`LowPass.transform_unary` returns the first `floor(len * keep_ratio)`
elements, except that a computed cutoff of zero is forced to 1, and the
result is never empty.  (For the empty signal the result is empty; the
source's forcing condition also requires `len(signal) > 0`.) -/
theorem lowpass_keep_spec (keep : ℚ) (s : Signal)
    (h0 : 0 < keep) (h1 : keep ≤ 1) (hs : s ≠ []) :
    LowPass.transform_unary keep s
      = s.take (if (Int.floor ((s.length : ℚ) * keep)).toNat = 0 then 1
                else (Int.floor ((s.length : ℚ) * keep)).toNat)
    ∧ LowPass.transform_unary keep s ≠ [] := by
  have hlen : 0 < s.length := List.length_pos.mpr hs
  have hmain : LowPass.transform_unary keep s
      = s.take (if (Int.floor ((s.length : ℚ) * keep)).toNat = 0 then 1
                else (Int.floor ((s.length : ℚ) * keep)).toNat) := by
    unfold LowPass.transform_unary
    by_cases hc : (Int.floor ((s.length : ℚ) * keep)).toNat = 0
    · simp [hc, h0, hlen]
    · simp [hc]
  refine ⟨hmain, ?_⟩
  rw [hmain]
  intro hnil
  rcases (List.take_eq_nil_iff).mp hnil with h | h
  · by_cases hc : (Int.floor ((s.length : ℚ) * keep)).toNat = 0 <;>
      simp [hc] at h
  · exact hs h

/-- C3 witness: `LowPass(keep_ratio = 1/100)` on a 10-element signal
keeps exactly the first element (forced minimum cutoff). -/
theorem lowpass_keep_witness :
    LowPass.transform_unary (1/100) ([0,1,2,3,4,5,6,7,8,9] : Signal)
      = List.take 1 ([0,1,2,3,4,5,6,7,8,9] : Signal)
    ∧ LowPass.transform_unary (1/100) ([0,1,2,3,4,5,6,7,8,9] : Signal) ≠ [] := by
  have h := lowpass_keep_spec (1/100) ([0,1,2,3,4,5,6,7,8,9] : Signal)
    (by norm_num) (by norm_num) (by simp)
  have hc : (Int.floor ((([0,1,2,3,4,5,6,7,8,9] : Signal).length : ℚ) * (1/100))).toNat = 0 := by
    norm_num
  rw [hc] at h
  simpa using h

/-- C7: constructing `LowPass` with `keep_ratio` outside `[0, 1]` fails
at construction time with the invalid-parameter error, while any ratio
inside the closed interval (in particular 0 and 1) succeeds. -/
theorem lowpass_init_spec (keep : ℚ) :
    ((keep < 0 ∨ 1 < keep) →
      LowPass.init keep = Except.error "keep_ratio must be between 0 and 1")
    ∧ (0 ≤ keep → keep ≤ 1 → LowPass.init keep = Except.ok keep) := by
  constructor
  · intro h
    have : ¬(0 ≤ keep ∧ keep ≤ 1) := by
      rcases h with h | h
      · exact fun hk => absurd hk.1 (not_le.mpr h)
      · exact fun hk => absurd hk.2 (not_le.mpr h)
    simp [LowPass.init, this]
  · intro h0 h1
    simp [LowPass.init, h0, h1]

/-- C7 witness: `keep_ratio = 3/2` and `keep_ratio = -1/10` are rejected
at construction time; `keep_ratio = 0` and `keep_ratio = 1` are
accepted. -/
theorem lowpass_init_witness :
    LowPass.init (3/2) = Except.error "keep_ratio must be between 0 and 1"
    ∧ LowPass.init (-1/10) = Except.error "keep_ratio must be between 0 and 1"
    ∧ LowPass.init 0 = Except.ok 0
    ∧ LowPass.init 1 = Except.ok 1 :=
  ⟨(lowpass_init_spec (3/2)).1 (by norm_num),
   (lowpass_init_spec (-1/10)).1 (by norm_num),
   (lowpass_init_spec 0).2 (by norm_num) (by norm_num),
   (lowpass_init_spec 1).2 (by norm_num) (by norm_num)⟩

/-- Embedding of `np.pad(s, (0, n - len(s)), mode=constant, 0)`: append
trailing zeros up to length `n` (the source never calls it with
`n < len(s)`). -/
def padTo (n : Nat) (s : Signal) : Signal :=
  s ++ List.replicate (n - s.length) 0

/-- Embedding of `PadZero.transform` (transform.py lines 228-253).  The
power-of-two test is the source's bit trick `max_len & (max_len - 1) == 0
and max_len != 0`; the float expression `int(2 ** np.ceil(np.log2(max_len)))`
of the other branch is embedded by its exact-arithmetic meaning
`2 ^ Nat.clog 2 max_len`. -/
def PadZero.transform (signal_a signal_b : Signal) : Signal × Signal :=
  let maxLen := max signal_a.length signal_b.length
  if maxLen = 0 then (signal_a, signal_b)
  else
    let n := if maxLen &&& (maxLen - 1) = 0 ∧ maxLen ≠ 0 then maxLen
             else 2 ^ Nat.clog 2 maxLen
    (padTo n signal_a, padTo n signal_b)

theorem padTo_length (n : Nat) (s : Signal) (h : s.length ≤ n) :
    (padTo n s).length = n := by
  simp only [padTo, List.length_append, List.length_replicate]
  omega

theorem padTo_of_length_eq (n : Nat) (s : Signal) (h : s.length = n) :
    padTo n s = s := by
  simp [padTo, h]

theorem land_two_pow_pred_eq_zero (k : Nat) : (2 ^ k) &&& (2 ^ k - 1) = 0 := by
  apply Nat.eq_of_testBit_eq
  intro i
  rw [Nat.testBit_and, Nat.testBit_two_pow, Nat.testBit_two_pow_sub_one,
    Nat.zero_testBit]
  by_cases h : k = i
  · subst h
    simp
  · simp [h]

theorem exists_pow_of_land_pred (m : Nat) (hm : m ≠ 0)
    (h : m &&& (m - 1) = 0) : ∃ k, m = 2 ^ k := by
  refine ⟨Nat.log 2 m, ?_⟩
  by_contra hne
  have h1 : 2 ^ Nat.log 2 m ≤ m := Nat.pow_log_le_self 2 hm
  have h2 : m < 2 ^ (Nat.log 2 m + 1) := Nat.lt_pow_succ_log_self (by norm_num) m
  have h3 : 2 ^ Nat.log 2 m < m := lt_of_le_of_ne h1 (fun he => hne he.symm)
  have hb1 : m.testBit (Nat.log 2 m) = true := by
    rw [Nat.testBit_to_div_mod]
    have hdiv : m / 2 ^ Nat.log 2 m = 1 := by
      apply Nat.div_eq_of_lt_le
      · simpa using h1
      · have : (1 + 1) * 2 ^ Nat.log 2 m = 2 ^ (Nat.log 2 m + 1) := by ring
        omega
    simp [hdiv]
  have hb2 : (m - 1).testBit (Nat.log 2 m) = true := by
    rw [Nat.testBit_to_div_mod]
    have hdiv : (m - 1) / 2 ^ Nat.log 2 m = 1 := by
      apply Nat.div_eq_of_lt_le
      · omega
      · have : (1 + 1) * 2 ^ Nat.log 2 m = 2 ^ (Nat.log 2 m + 1) := by ring
        omega
    simp [hdiv]
  have hfalse := congrArg (fun x => x.testBit (Nat.log 2 m)) h
  simp only [Nat.testBit_and, hb1, hb2, Bool.and_self, Nat.zero_testBit] at hfalse
  exact Bool.noConfusion hfalse

/-- Helper: on any pair with a nonzero longer length, `PadZero.transform`
pads both signals to `2 ^ k`, where `k` is least with
`max len ≤ 2 ^ k`. -/
theorem padzero_shape (a b : Signal) (hm : max a.length b.length ≠ 0) :
    ∃ k : ℕ,
      max a.length b.length ≤ 2 ^ k
      ∧ (∀ j : ℕ, max a.length b.length ≤ 2 ^ j → k ≤ j)
      ∧ PadZero.transform a b = (padTo (2 ^ k) a, padTo (2 ^ k) b) := by
  by_cases ht : (max a.length b.length) &&& (max a.length b.length - 1) = 0
      ∧ max a.length b.length ≠ 0
  · obtain ⟨k, hk⟩ := exists_pow_of_land_pred _ hm ht.1
    refine ⟨k, le_of_eq hk, ?_, ?_⟩
    · intro j hj
      rw [hk] at hj
      exact (Nat.le_pow_iff_clog_le (by norm_num)).mp hj |>.trans_eq' (Nat.clog_pow 2 k (by norm_num)).symm
    · have hswap : PadZero.transform a b
          = (padTo (max a.length b.length) a, padTo (max a.length b.length) b) := by
        simp [PadZero.transform, hm, ht]
      rw [hswap, hk]
  · refine ⟨Nat.clog 2 (max a.length b.length),
      Nat.le_pow_clog (by norm_num) _, ?_, ?_⟩
    · intro j hj
      exact (Nat.le_pow_iff_clog_le (by norm_num)).mp hj
    · simp only [PadZero.transform, hm, if_false, ht]

/-- C4: when the longer input length is positive, both `PadZero` outputs
have the same length `2 ^ k`, the least power of two at or above the
longer input length (so an exact power of two is used as-is); each
output is its input followed by zeros; and when both inputs are empty
they are returned unchanged. -/
theorem padzero_spec (a b : Signal) :
    (0 < max a.length b.length →
      ∃ k : ℕ,
        (PadZero.transform a b).1.length = 2 ^ k
        ∧ (PadZero.transform a b).2.length = 2 ^ k
        ∧ max a.length b.length ≤ 2 ^ k
        ∧ (∀ j : ℕ, max a.length b.length ≤ 2 ^ j → 2 ^ k ≤ 2 ^ j)
        ∧ (PadZero.transform a b).1 = a ++ List.replicate (2 ^ k - a.length) (0 : ℝ)
        ∧ (PadZero.transform a b).2 = b ++ List.replicate (2 ^ k - b.length) (0 : ℝ))
    ∧ (max a.length b.length = 0 → PadZero.transform a b = (a, b)) := by
  constructor
  · intro hpos
    obtain ⟨k, hle, hmin, heq⟩ := padzero_shape a b (Nat.pos_iff_ne_zero.mp hpos)
    have la : a.length ≤ 2 ^ k := le_trans (le_max_left _ _) hle
    have lb : b.length ≤ 2 ^ k := le_trans (le_max_right _ _) hle
    refine ⟨k, ?_, ?_, hle, ?_, ?_, ?_⟩
    · rw [heq]; exact padTo_length _ _ la
    · rw [heq]; exact padTo_length _ _ lb
    · intro j hj
      exact Nat.pow_le_pow_right (by norm_num) (hmin j hj)
    · rw [heq]; rfl
    · rw [heq]; rfl
  · intro h
    simp [PadZero.transform, h]

/-- C10: `PadZero.transform` is idempotent: applied to its own output it
returns that output unchanged (the output lengths are equal and already
an exact power of two, or both zero). -/
theorem padzero_idem (a b : Signal) :
    PadZero.transform (PadZero.transform a b).1 (PadZero.transform a b).2
      = PadZero.transform a b := by
  by_cases hm : max a.length b.length = 0
  · have h1 : PadZero.transform a b = (a, b) := by
      simp [PadZero.transform, hm]
    rw [h1]
    exact h1
  · obtain ⟨k, hle, -, heq⟩ := padzero_shape a b hm
    have la : (padTo (2 ^ k) a).length = 2 ^ k :=
      padTo_length _ _ (le_trans (le_max_left _ _) hle)
    have lb : (padTo (2 ^ k) b).length = 2 ^ k :=
      padTo_length _ _ (le_trans (le_max_right _ _) hle)
    have hpos : (2 : ℕ) ^ k ≠ 0 := Nat.pos_iff_ne_zero.mp (Nat.pow_pos (by norm_num))
    rw [heq]
    show PadZero.transform (padTo (2 ^ k) a) (padTo (2 ^ k) b)
      = (padTo (2 ^ k) a, padTo (2 ^ k) b)
    have hmax : max (padTo (2 ^ k) a).length (padTo (2 ^ k) b).length = 2 ^ k := by
      rw [la, lb, max_self]
    simp only [PadZero.transform, hmax, hpos, if_false, land_two_pow_pred_eq_zero k,
      ne_eq, not_false_eq_true, and_self, if_true]
    rw [padTo_of_length_eq _ _ la, padTo_of_length_eq _ _ lb]

theorem sum_map_div (s : List ℝ) (f : ℝ → ℝ) (c : ℝ) :
    (s.map (fun x => f x / c)).sum = (s.map f).sum / c := by
  induction s with
  | nil => simp
  | cons a t ih =>
    simp only [List.map_cons, List.sum_cons, ih]
    ring

theorem sum_map_sub (s : List ℝ) (c : ℝ) :
    (s.map (fun x => x - c)).sum = s.sum - s.length * c := by
  induction s with
  | nil => simp
  | cons a t ih =>
    simp only [List.map_cons, List.sum_cons, ih, List.length_cons]
    push_cast
    ring

theorem var_nonneg (s : Signal) : 0 ≤ var s := by
  unfold var mean
  apply div_nonneg
  · apply List.sum_nonneg
    intro x hx
    obtain ⟨y, -, rfl⟩ := List.mem_map.mp hx
    positivity
  · positivity

theorem std_eq_zero_iff (s : Signal) : std s = 0 ↔ var s = 0 := by
  unfold std
  constructor
  · intro h
    exact le_antisymm (Real.sqrt_eq_zero'.mp h) (var_nonneg s)
  · intro h
    rw [h, Real.sqrt_zero]

theorem std_pos_of_ne_zero (s : Signal) (h : std s ≠ 0) : 0 < std s := by
  rcases lt_or_eq_of_le (Real.sqrt_nonneg (var s)) with hlt | heq
  · exact hlt
  · exact absurd heq.symm h

/-- An all-zero list of the same length: the value of `signal * 0`. -/
theorem map_mul_zero (s : Signal) :
    s.map (fun x => x * 0) = List.replicate s.length 0 := by
  induction s with
  | nil => rfl
  | cons a t ih => simp [ih, List.replicate_succ]

/-- Embedding of `Normalize.transform_unary` (transform.py lines
140-157) with construction-time parameter `eps` (transform.py lines
129-138): all zeros (`signal * 0`) when the standard deviation is below
`eps`, otherwise the Z-score `(signal - mean) / std`. -/
noncomputable def Normalize.transform_unary (eps : ℝ) (signal : Signal) : Signal :=
  if std signal < eps then signal.map (fun x => x * 0)
  else signal.map (fun x => (x - mean signal) / std signal)

/-- C5 counterexample: `Normalize` can be constructed with a
non-positive epsilon (the source accepts any float), and then a
constant signal takes the Z-score branch whose output does not have
standard deviation 1; with `eps = -1` and the signal `[5]`, the
standard deviation (0) is at least `eps`, yet the output's standard
deviation is not 1. -/
theorem normalize_eps_cex :
    (-1 : ℝ) ≤ std [(5 : ℝ)]
    ∧ std (Normalize.transform_unary (-1) [(5 : ℝ)]) ≠ 1 := by
  have h5 : std [(5 : ℝ)] = 0 := by
    norm_num [std, var, mean]
  have ht : Normalize.transform_unary (-1) [(5 : ℝ)] = [(0 : ℝ)] := by
    rw [Normalize.transform_unary, if_neg (by rw [h5]; norm_num)]
    norm_num [mean]
  constructor
  · rw [h5]; norm_num
  · rw [ht]
    norm_num [std, var, mean]

theorem mean_map_sub_div (s : Signal) (c d : ℝ) (hc : c = mean s)
    (h : (s.length : ℝ) ≠ 0) :
    mean (s.map (fun x => (x - c) / d)) = 0 := by
  unfold mean
  rw [List.length_map, sum_map_div s (fun x => x - c) d, sum_map_sub]
  have hz : s.sum - (s.length : ℝ) * c = 0 := by
    rw [hc]
    unfold mean
    field_simp
  rw [hz]
  simp

theorem var_map_zscore (s : Signal) (c d : ℝ) (hc : c = mean s)
    (hd : d ^ 2 = var s) (hdne : d ≠ 0) (h : (s.length : ℝ) ≠ 0) :
    var (s.map (fun x => (x - c) / d)) = 1 := by
  have hμ : mean (s.map (fun x => (x - c) / d)) = 0 := mean_map_sub_div s c d hc h
  unfold var
  rw [hμ]
  simp only [sub_zero, List.map_map]
  have hcomp : ((fun y => y ^ 2) ∘ fun x => (x - c) / d)
      = fun x => ((x - c) ^ 2) / d ^ 2 := by
    funext x
    simp [Function.comp, div_pow]
  rw [hcomp]
  unfold mean
  rw [List.length_map, sum_map_div s (fun x => (x - c) ^ 2) (d ^ 2)]
  have hs : (s.map (fun x => (x - c) ^ 2)).sum = var s * s.length := by
    have hv : var s = (s.map (fun x => (x - c) ^ 2)).sum / s.length := by
      rw [hc]
      unfold var mean
      rw [List.length_map]
    rw [hv]
    field_simp
  rw [hs, ← hd]
  field_simp

/-- C5 (amended): for a positive construction-time epsilon, a signal
whose standard deviation is below epsilon is mapped to the all-zero
signal of the same length, and a signal whose standard deviation is at
least epsilon is mapped to its Z-score, which has mean 0 and standard
deviation 1. -/
theorem normalize_spec (eps : ℝ) (s : Signal) (heps : 0 < eps) :
    (std s < eps → Normalize.transform_unary eps s = List.replicate s.length 0)
    ∧ (eps ≤ std s →
        Normalize.transform_unary eps s = s.map (fun x => (x - mean s) / std s)
        ∧ mean (Normalize.transform_unary eps s) = 0
        ∧ std (Normalize.transform_unary eps s) = 1) := by
  constructor
  · intro h
    rw [Normalize.transform_unary, if_pos h, map_mul_zero]
  · intro h
    have hσ : 0 < std s := lt_of_lt_of_le heps h
    have hvar : 0 < var s := Real.sqrt_pos.mp hσ
    have hne : s ≠ [] := by
      intro hnil
      rw [hnil] at hvar
      simp [var, mean] at hvar
    have hnR : (s.length : ℝ) ≠ 0 :=
      Nat.cast_ne_zero.mpr (Nat.pos_iff_ne_zero.mp (List.length_pos.mpr hne))
    have heq : Normalize.transform_unary eps s = s.map (fun x => (x - mean s) / std s) := by
      rw [Normalize.transform_unary, if_neg (not_lt.mpr h)]
    have hμ : mean (s.map (fun x => (x - mean s) / std s)) = 0 :=
      mean_map_sub_div s (mean s) (std s) rfl hnR
    have hσ2 : std s ^ 2 = var s := Real.sq_sqrt (var_nonneg s)
    have hvt : var (s.map (fun x => (x - mean s) / std s)) = 1 :=
      var_map_zscore s (mean s) (std s) rfl hσ2 (ne_of_gt hσ) hnR
    refine ⟨heq, ?_, ?_⟩
    · rw [heq]; exact hμ
    · rw [heq, std, hvt, Real.sqrt_one]

/-- C5 witness: with `eps = 1`, the signal `[0, 2]` (standard deviation
1) is mapped to its Z-score `[-1, 1]` with mean 0 and standard
deviation 1, and the constant signal `[5, 5]` is mapped to `[0, 0]`. -/
theorem normalize_witness :
    Normalize.transform_unary 1 [(0 : ℝ), 2]
      = [(0 : ℝ), 2].map (fun x => (x - mean [(0 : ℝ), 2]) / std [(0 : ℝ), 2])
    ∧ mean (Normalize.transform_unary 1 [(0 : ℝ), 2]) = 0
    ∧ std (Normalize.transform_unary 1 [(0 : ℝ), 2]) = 1
    ∧ Normalize.transform_unary 1 [(5 : ℝ), 5] = List.replicate 2 0 := by
  have hstd : std [(0 : ℝ), 2] = 1 := by
    norm_num [std, var, mean]
  have hconst : std [(5 : ℝ), 5] = 0 := by
    norm_num [std, var, mean]
  have h1 := (normalize_spec 1 [(0 : ℝ), 2] one_pos).2 (by rw [hstd])
  have h2 := (normalize_spec 1 [(5 : ℝ), 5] one_pos).1 (by rw [hconst]; norm_num)
  exact ⟨h1.1, h1.2.1, h1.2.2, by simpa using h2⟩

/-- Embedding of `CosineScoring.compare` (scoring.py lines 59-66):
`dot / norm` guarded by the Python truthiness test `if norm` (the
division is only reached when the product of the two Euclidean norms is
nonzero; otherwise 0.0 is returned). -/
noncomputable def CosineScoring.compare (signal_a signal_b : Signal) : ℝ :=
  let dot := dotp signal_a signal_b
  let norm := norm2 signal_a * norm2 signal_b
  if norm = 0 then 0 else dot / norm

theorem sumsq_nonneg (s : Signal) : 0 ≤ (s.map (fun x => x ^ 2)).sum := by
  apply List.sum_nonneg
  intro x hx
  obtain ⟨y, -, rfl⟩ := List.mem_map.mp hx
  positivity

theorem norm2_mul_self (s : Signal) :
    norm2 s * norm2 s = (s.map (fun x => x ^ 2)).sum :=
  Real.mul_self_sqrt (sumsq_nonneg s)

theorem dotp_self (s : Signal) : dotp s s = (s.map (fun x => x ^ 2)).sum := by
  induction s with
  | nil => rfl
  | cons a t ih =>
    simp only [dotp, List.zipWith_cons_cons, List.sum_cons, List.map_cons] at ih ⊢
    rw [ih]
    ring

theorem dotp_neg_right (s : Signal) :
    dotp s (s.map (fun x => -x)) = -((s.map (fun x => x ^ 2)).sum) := by
  induction s with
  | nil => simp [dotp]
  | cons a t ih =>
    simp only [dotp, List.map_cons, List.zipWith_cons_cons, List.sum_cons] at ih ⊢
    rw [ih]
    ring

theorem sumsq_map_neg (s : Signal) :
    ((s.map (fun x => -x)).map (fun x => x ^ 2)).sum = (s.map (fun x => x ^ 2)).sum := by
  rw [List.map_map]
  have hcomp : ((fun x : ℝ => x ^ 2) ∘ fun x => -x) = fun x : ℝ => x ^ 2 := by
    funext x
    simp [Function.comp]
  rw [hcomp]

theorem sumsq_pos (s : Signal) (h : ∃ x ∈ s, x ≠ 0) :
    0 < (s.map (fun x => x ^ 2)).sum := by
  obtain ⟨x, hx, hxne⟩ := h
  have h1 : x ^ 2 ≤ (s.map (fun x => x ^ 2)).sum := by
    apply List.single_le_sum
    · intro y hy
      obtain ⟨z, -, rfl⟩ := List.mem_map.mp hy
      positivity
    · exact List.mem_map.mpr ⟨x, hx, rfl⟩
  have h2 : 0 < x ^ 2 := by positivity
  linarith

/-- C6: when the product of the Euclidean norms is exactly zero,
`CosineScoring.compare` returns 0.0 without dividing; in particular the
comparison of any vector with a zero vector (of any length, on either
side) is 0.0. -/
theorem cosine_zero_spec (a b : Signal) (h : norm2 a * norm2 b = 0) :
    CosineScoring.compare a b = 0
    ∧ (∀ v : Signal, ∀ n : ℕ,
        CosineScoring.compare v (List.replicate n 0) = 0
        ∧ CosineScoring.compare (List.replicate n 0) v = 0) := by
  have hz : ∀ n : ℕ, norm2 (List.replicate n (0 : ℝ)) = 0 := by
    intro n
    simp [norm2]
  refine ⟨by simp [CosineScoring.compare, h], ?_⟩
  intro v n
  constructor
  · simp [CosineScoring.compare, hz n]
  · simp [CosineScoring.compare, hz n]

/-- C6 witness: comparing `[1]` with the zero vector `[0]` hits the
zero-norm guard and returns 0.0. -/
theorem cosine_zero_witness :
    norm2 [(1 : ℝ)] * norm2 [(0 : ℝ)] = 0
    ∧ CosineScoring.compare [(1 : ℝ)] [(0 : ℝ)] = 0 := by
  have h : norm2 [(0 : ℝ)] = 0 := by
    simp [norm2]
  have hprod : norm2 [(1 : ℝ)] * norm2 [(0 : ℝ)] = 0 := by
    rw [h, mul_zero]
  exact ⟨hprod, (cosine_zero_spec [(1 : ℝ)] [(0 : ℝ)] hprod).1⟩

/-- C9: for every real vector with a nonzero entry, cosine similarity
with itself is 1.0 and with its elementwise negation is -1.0. -/
theorem cosine_self_spec (v : Signal) (hv : ∃ x ∈ v, x ≠ 0) :
    CosineScoring.compare v v = 1
    ∧ CosineScoring.compare v (v.map (fun x => -x)) = -1 := by
  have hpos := sumsq_pos v hv
  have hne : (v.map (fun x => x ^ 2)).sum ≠ 0 := ne_of_gt hpos
  have hguard : norm2 v * norm2 v ≠ 0 := by
    rw [norm2_mul_self]
    exact hne
  have hnegnorm : norm2 (v.map (fun x => -x)) = norm2 v := by
    unfold norm2
    rw [sumsq_map_neg]
  constructor
  · simp only [CosineScoring.compare, hguard, if_false]
    rw [dotp_self, norm2_mul_self]
    exact div_self hne
  · simp only [CosineScoring.compare, hnegnorm, hguard, if_false]
    rw [dotp_neg_right, norm2_mul_self, neg_div]
    rw [div_self hne]

/-- C9 witness: at the nonzero vector `[1]`, cosine of the vector with
itself is 1 and with its negation is -1. -/
theorem cosine_self_witness :
    CosineScoring.compare [(1 : ℝ)] [(1 : ℝ)] = 1
    ∧ CosineScoring.compare [(1 : ℝ)] ([(1 : ℝ)].map (fun x => -x)) = -1 :=
  cosine_self_spec [(1 : ℝ)] ⟨1, by simp, by norm_num⟩

/-- A signal is an elementwise-constant sequence: any two of its
entries are equal (vacuously true for the empty signal). -/
def IsConst (s : Signal) : Prop :=
  ∀ x ∈ s, ∀ y ∈ s, x = y

theorem mean_of_const (s : Signal) (x : ℝ) (hx : x ∈ s)
    (hall : ∀ y ∈ s, y = x) : mean s = x := by
  have hsum : s.sum = s.length • x := List.sum_eq_card_nsmul s x hall
  have hne : (s.length : ℝ) ≠ 0 :=
    Nat.cast_ne_zero.mpr
      (Nat.pos_iff_ne_zero.mp (List.length_pos.mpr (List.ne_nil_of_mem hx)))
  rw [mean, hsum, nsmul_eq_mul]
  field_simp

theorem var_eq_zero_of_isConst (s : Signal) (h : IsConst s) : var s = 0 := by
  cases s with
  | nil => simp [var, mean]
  | cons a t =>
    have hall : ∀ y ∈ (a :: t), y = a := fun y hy => h y hy a (List.mem_cons_self a t)
    have hmean : mean (a :: t) = a := mean_of_const (a :: t) a (List.mem_cons_self a t) hall
    have hzero : ∀ z ∈ (a :: t).map (fun x => (x - mean (a :: t)) ^ 2), z = 0 := by
      intro z hz
      obtain ⟨y, hy, rfl⟩ := List.mem_map.mp hz
      rw [hall y hy, hmean]
      ring
    rw [var, mean, List.sum_eq_zero hzero]
    simp

theorem isConst_of_var_eq_zero (s : Signal) (h : var s = 0) : IsConst s := by
  by_cases hnil : s = []
  · intro x hx
    rw [hnil] at hx
    exact absurd hx (List.not_mem_nil x)
  · have hne : (s.length : ℝ) ≠ 0 :=
      Nat.cast_ne_zero.mpr (Nat.pos_iff_ne_zero.mp (List.length_pos.mpr hnil))
    have hsum : (s.map (fun x => (x - mean s) ^ 2)).sum = 0 := by
      have hv : var s = (s.map (fun x => (x - mean s) ^ 2)).sum / s.length := by
        unfold var mean
        rw [List.length_map]
      rw [hv] at h
      field_simp at h
      exact h
    have hmean : ∀ x ∈ s, x = mean s := by
      intro x hx
      have hsq : (x - mean s) ^ 2 = 0 := by
        apply List.all_zero_of_le_zero_le_of_sum_eq_zero _ hsum
          (List.mem_map.mpr ⟨x, hx, rfl⟩)
        intro z hz
        obtain ⟨y, -, rfl⟩ := List.mem_map.mp hz
        positivity
      have := pow_eq_zero_iff (n := 2) (by norm_num) |>.mp hsq
      linarith [this]
    intro x hx y hy
    rw [hmean x hx, hmean y hy]

theorem isConst_iff_std_eq_zero (s : Signal) : IsConst s ↔ std s = 0 := by
  rw [std_eq_zero_iff]
  exact ⟨var_eq_zero_of_isConst s, isConst_of_var_eq_zero s⟩

/-- Model of `scipy.stats.pearsonr` on equal-length real input (the
external library call in scoring.py line 93): the standard Pearson
linear correlation coefficient. -/
noncomputable def pearsonr (a b : Signal) : ℝ :=
  (List.zipWith (fun x y => (x - mean a) * (y - mean b)) a b).sum
    / (Real.sqrt ((a.map (fun x => (x - mean a) ^ 2)).sum)
        * Real.sqrt ((b.map (fun y => (y - mean b) ^ 2)).sum))

/-- Embedding of `PearsonScoring.compare` (scoring.py lines 77-94):
when either standard deviation is zero it returns 1.0 exactly when the
signals are `np.array_equal` and the first one is constant, otherwise
0.0; in the non-degenerate case it defers to `pearsonr`. -/
noncomputable def PearsonScoring.compare (signal_a signal_b : Signal) : ℝ :=
  if std signal_a = 0 ∨ std signal_b = 0 then
    if signal_a = signal_b ∧ std signal_a = 0 then 1 else 0
  else pearsonr signal_a signal_b

/-- C2: with a zero standard deviation on either side,
`PearsonScoring.compare` returns 1.0 exactly for elementwise identical
constant sequences and 0.0 otherwise; with both standard deviations
nonzero it returns the standard Pearson correlation coefficient. -/
theorem pearson_degenerate_spec (a b : Signal) (hlen : a.length = b.length) :
    ((std a = 0 ∨ std b = 0) →
      ((a = b ∧ IsConst a → PearsonScoring.compare a b = 1)
        ∧ (¬(a = b ∧ IsConst a) → PearsonScoring.compare a b = 0)))
    ∧ (std a ≠ 0 → std b ≠ 0 → PearsonScoring.compare a b = pearsonr a b) := by
  refine ⟨fun hdeg => ⟨?_, ?_⟩, fun ha hb => ?_⟩
  · rintro ⟨heq, hconst⟩
    have hstd : std a = 0 := (isConst_iff_std_eq_zero a).mp hconst
    simp only [PearsonScoring.compare]
    rw [if_pos hdeg, if_pos ⟨heq, hstd⟩]
  · intro hnot
    have hinner : ¬(a = b ∧ std a = 0) := by
      rintro ⟨heq, hstd⟩
      exact hnot ⟨heq, (isConst_iff_std_eq_zero a).mpr hstd⟩
    simp only [PearsonScoring.compare]
    rw [if_pos hdeg, if_neg hinner]
  · have hng : ¬(std a = 0 ∨ std b = 0) := by
      rintro (h | h)
      exacts [ha h, hb h]
    simp only [PearsonScoring.compare]
    rw [if_neg hng]

/-- C2 witness: two identical constant signals of tens score 1.0; a
constant signal of tens against a non-identical signal scores 0.0. -/
theorem pearson_degenerate_witness :
    PearsonScoring.compare ([10,10,10,10,10] : Signal) ([10,10,10,10,10] : Signal) = 1
    ∧ PearsonScoring.compare ([10,10,10,10,10] : Signal) ([10,10,10,10,11] : Signal) = 0 := by
  have hstd : std ([10,10,10,10,10] : Signal) = 0 := by
    norm_num [std, var, mean]
  have hconst : IsConst ([10,10,10,10,10] : Signal) := by
    intro x hx y hy
    simp at hx hy
    rw [hx, hy]
  refine ⟨((pearson_degenerate_spec ([10,10,10,10,10] : Signal)
        ([10,10,10,10,10] : Signal) rfl).1 (Or.inl hstd)).1 ⟨rfl, hconst⟩,
    ((pearson_degenerate_spec ([10,10,10,10,10] : Signal)
        ([10,10,10,10,11] : Signal) rfl).1 (Or.inl hstd)).2 ?_⟩
  rintro ⟨heq, -⟩
  simp only [List.cons.injEq, and_true] at heq
  norm_num at heq

/-- Embedding of `NCCScoring.compare` (scoring.py lines 134-145) for
equal-length input: `np.correlate(x, y, mode=valid)[0]` of two
equal-length real sequences is their inner product; it is applied to
the Z-normalized signals and divided by `len(signal_a)`.  No
zero-variance guard appears in the definition. -/
noncomputable def NCCScoring.compare (signal_a signal_b : Signal) : ℝ :=
  (List.zipWith (fun x y => x * y)
      (signal_a.map (fun x => (x - mean signal_a) / std signal_a))
      (signal_b.map (fun y => (y - mean signal_b) / std signal_b))).sum
    / (signal_a.length : ℝ)

theorem zipWith_mul_sum_eq (x y : List ℝ) (h : x.length = y.length) :
    (List.zipWith (fun u v => u * v) x y).sum
      = ∑ i ∈ Finset.range x.length, x.getD i 0 * y.getD i 0 := by
  induction x generalizing y with
  | nil => simp
  | cons a t ih =>
    cases y with
    | nil => simp at h
    | cons b u =>
      simp only [List.zipWith_cons_cons, List.sum_cons, List.length_cons]
      rw [Finset.sum_range_succ']
      simp only [List.getD_cons_succ, List.getD_cons_zero]
      rw [ih u (by simpa using h)]
      ring

/-- C8: for equal-length signals with nonzero standard deviations,
`NCCScoring.compare` is the zero-lag cross-correlation of the
Z-normalized signals divided by the signal length. -/
theorem ncc_spec (a b : Signal) (hlen : a.length = b.length)
    (ha : std a ≠ 0) (hb : std b ≠ 0) :
    NCCScoring.compare a b
      = (1 / (a.length : ℝ)) * ∑ i ∈ Finset.range a.length,
          ((a.getD i 0 - mean a) / std a) * ((b.getD i 0 - mean b) / std b) := by
  unfold NCCScoring.compare
  rw [zipWith_mul_sum_eq _ _ (by simp [hlen]), List.length_map]
  have hsum : ∑ i ∈ Finset.range a.length,
      (a.map (fun x => (x - mean a) / std a)).getD i 0
        * (b.map (fun y => (y - mean b) / std b)).getD i 0
      = ∑ i ∈ Finset.range a.length,
          ((a.getD i 0 - mean a) / std a) * ((b.getD i 0 - mean b) / std b) := by
    apply Finset.sum_congr rfl
    intro i hi
    have hia : i < a.length := Finset.mem_range.mp hi
    have hib : i < b.length := hlen ▸ hia
    have hma : i < (a.map (fun x => (x - mean a) / std a)).length := by simpa using hia
    have hmb : i < (b.map (fun y => (y - mean b) / std b)).length := by simpa using hib
    simp only [List.getD_eq_getElem?_getD]
    rw [List.getElem?_eq_getElem hma, List.getElem?_eq_getElem hmb,
      List.getElem?_eq_getElem hia, List.getElem?_eq_getElem hib]
    simp only [Option.getD_some, List.getElem_map]
  rw [hsum, one_div, inv_mul_eq_div]

/-- C8 witness: at the equal-length pair `([0,2], [0,2])` with standard
deviation 1, the NCC value equals the zero-lag formula. -/
theorem ncc_witness :
    NCCScoring.compare ([0,2] : Signal) ([0,2] : Signal)
      = (1 / ((([0,2] : Signal).length : ℕ) : ℝ)) * ∑ i ∈ Finset.range ([0,2] : Signal).length,
          ((([0,2] : Signal).getD i 0 - mean ([0,2] : Signal)) / std ([0,2] : Signal))
            * ((([0,2] : Signal).getD i 0 - mean ([0,2] : Signal)) / std ([0,2] : Signal)) := by
  have hstd : std ([0,2] : Signal) = 1 := by
    norm_num [std, var, mean]
  exact ncc_spec ([0,2] : Signal) ([0,2] : Signal) rfl
    (by rw [hstd]; norm_num) (by rw [hstd]; norm_num)

/-- C4 witness: pair `([1], [1,2,3])` with positive longer length 3 is
padded to the least power of two 4 on both sides, with contents kept as
prefixes and trailing zeros. -/
theorem padzero_witness :
    0 < max ([1] : Signal).length ([1,2,3] : Signal).length
    ∧ ∃ k : ℕ,
        (PadZero.transform ([1] : Signal) ([1,2,3] : Signal)).1.length = 2 ^ k
        ∧ (PadZero.transform ([1] : Signal) ([1,2,3] : Signal)).2.length = 2 ^ k
        ∧ max ([1] : Signal).length ([1,2,3] : Signal).length ≤ 2 ^ k
        ∧ (∀ j : ℕ, max ([1] : Signal).length ([1,2,3] : Signal).length ≤ 2 ^ j
            → 2 ^ k ≤ 2 ^ j)
        ∧ (PadZero.transform ([1] : Signal) ([1,2,3] : Signal)).1
            = ([1] : Signal) ++ List.replicate (2 ^ k - ([1] : Signal).length) (0 : ℝ)
        ∧ (PadZero.transform ([1] : Signal) ([1,2,3] : Signal)).2
            = ([1,2,3] : Signal) ++ List.replicate (2 ^ k - ([1,2,3] : Signal).length) (0 : ℝ) :=
  ⟨by norm_num, (padzero_spec ([1] : Signal) ([1,2,3] : Signal)).1 (by norm_num)⟩
